import Mathlib

/-!
Shallow embedding of `requests_toolbelt/multipart/encoder.py`.

Bytes are modelled as `List Nat` (code points of the ASCII strings involved).
`CustomBytesBuffer` models the `CustomBytesIO` subclass of `io.BytesIO`
(a byte storage plus a cursor used both for reads and, transiently, writes).
`PyFile` models an open file object (contents plus current offset); `fstat`
on it yields the full content length.  `Data` models the objects stored in
`_fields_list` (the result of `readable_data`), `Body` the coerced current
data (`coerce_data`), including the `FileWrapper` adapter.

The encoder functions mirror the Python methods statement by statement.
`read` with `size=None` reaches `size - written` with `size = None` inside
`_load_bytes`, which raises a `TypeError` in Python; this is modelled by the
`crashed` flag / a `none` output, with the state mutations that happened
before the exception preserved.  Retractions performed by `_next_tuple`
(`seek(-2, 1); truncate(); write('--\r\n')`) are additionally reported as
ghost `RetractEvent` values recording exactly which bytes were discarded and
at which position; they do not influence the computed state.
-/

namespace MPEnc

abbrev Bytes := List Nat

def strBytes (s : String) : Bytes := s.data.map Char.toNat

def crlf : Bytes := strBytes "\r\n"

/-- Model of `CustomBytesIO`: `storage` is the underlying byte string,
`pos` the stream position (`tell()`). -/
structure CustomBytesBuffer where
  storage : Bytes
  pos : Nat
deriving DecidableEq

namespace CustomBytesBuffer

/-- `_get_end`: total length of the storage. -/
def getEnd (b : CustomBytesBuffer) : Nat := b.storage.length

/-- `__len__`: bytes between the cursor and the end. -/
def len (b : CustomBytesBuffer) : Nat := b.getEnd - b.pos

/-- The unread suffix `storage[pos:]`. -/
def unread (b : CustomBytesBuffer) : Bytes := b.storage.drop b.pos

/-- `write`: writes at the cursor (zero-padding if the cursor is past the
end, as `io.BytesIO` does), returns the number of bytes written. -/
def write (b : CustomBytesBuffer) (d : Bytes) : Nat × CustomBytesBuffer :=
  (d.length,
    ⟨b.storage.take b.pos ++ List.replicate (b.pos - b.storage.length) 0
      ++ d ++ b.storage.drop (b.pos + d.length),
     b.pos + d.length⟩)

/-- `read(n)` with `n >= 0`: up to `n` bytes from the cursor. -/
def readN (b : CustomBytesBuffer) (n : Nat) : Bytes × CustomBytesBuffer :=
  (b.unread.take n, ⟨b.storage, b.pos + min n b.len⟩)

/-- `read()` / `read(-1)`: all remaining bytes. -/
def readAll (b : CustomBytesBuffer) : Bytes × CustomBytesBuffer :=
  (b.unread, ⟨b.storage, b.pos + b.len⟩)

/-- `seek(p, 0)`. -/
def seekTo (b : CustomBytesBuffer) (p : Nat) : CustomBytesBuffer :=
  ⟨b.storage, p⟩

/-- `seek(0, 2)`. -/
def seekEnd (b : CustomBytesBuffer) : CustomBytesBuffer :=
  ⟨b.storage, b.storage.length⟩

/-- `seek(-2, 1)`: move the cursor back two bytes. -/
def seekBack2 (b : CustomBytesBuffer) : CustomBytesBuffer :=
  ⟨b.storage, b.pos - 2⟩

/-- `truncate()`: cut the storage at the cursor. -/
def truncateHere (b : CustomBytesBuffer) : CustomBytesBuffer :=
  ⟨b.storage.take b.pos, b.pos⟩

/-- `smart_truncate`: when the already-read prefix is at least as long as
the unread suffix, drop the prefix and reset the cursor to 0. -/
def smartTruncate (b : CustomBytesBuffer) : CustomBytesBuffer :=
  if b.len ≤ b.getEnd - b.len then ⟨b.unread, 0⟩ else b

end CustomBytesBuffer

/-- An open file object: contents plus the current read offset. -/
structure PyFile where
  contents : Bytes
  pos : Nat
deriving DecidableEq

/-- `file.read(n)` / `file.read(-1)` (`none` means read-all). -/
def PyFile.readF (f : PyFile) (size : Option Nat) : Bytes × PyFile :=
  match size with
  | some n =>
      ((f.contents.drop f.pos).take n,
        ⟨f.contents, f.pos + min n (f.contents.length - f.pos)⟩)
  | none =>
      (f.contents.drop f.pos,
        ⟨f.contents, f.pos + (f.contents.length - f.pos)⟩)

/-- An entry of `_fields_list` as produced by `readable_data`:
either a `CustomBytesIO` made from a string, a raw file object (has
`read` and `fileno`), or a readable stream without any length capability. -/
inductive Data where
  | mem : CustomBytesBuffer → Data
  | file : PyFile → Data
  | noLen : CustomBytesBuffer → Data
deriving DecidableEq

/-- `super_len` applied to a `_fields_list` entry: `CustomBytesIO` has
`__len__` (remaining bytes); a file is measured by `fstat` (total size,
ignoring the current offset); a bare stream has no length (`None`). -/
def superLenData : Data → Option Nat
  | .mem c => some c.len
  | .file f => some f.contents.length
  | .noLen _ => none

/-- The coerced `_current_data` (`coerce_data`): files get wrapped in
`FileWrapper`. -/
inductive Body where
  | mem : CustomBytesBuffer → Body
  | fileW : PyFile → Body
  | noLen : CustomBytesBuffer → Body
deriving DecidableEq

def coerceData : Data → Body
  | .mem c => .mem c
  | .file f => .fileW f
  | .noLen c => .noLen c

/-- `super_len` applied to `_current_data`: `FileWrapper.__len__` is
`super_len(fd) - fd.tell()`, the bytes remaining from the current offset. -/
def superLenBody : Body → Option Nat
  | .mem c => some c.len
  | .fileW f => some (f.contents.length - f.pos)
  | .noLen _ => none

/-- `super_len(self._current_data)` where the attribute may still be `None`
(`super_len(None)` yields `None`). -/
def superLenOpt : Option Body → Option Nat
  | none => none
  | some b => superLenBody b

/-- `body.read(n)` / `body.read(-1)`. -/
def Body.readB : Body → Option Nat → Bytes × Body
  | .mem c, some n => ((c.readN n).1, .mem (c.readN n).2)
  | .mem c, none => ((c.readAll).1, .mem (c.readAll).2)
  | .fileW f, s => ((f.readF s).1, .fileW (f.readF s).2)
  | .noLen c, some n => ((c.readN n).1, .noLen (c.readN n).2)
  | .noLen c, none => ((c.readAll).1, .noLen (c.readAll).2)

/-- `option > 0` with Python-2 `None` comparison semantics
(`None > 0` is false). -/
def optGtZero : Option Nat → Bool
  | some n => decide (0 < n)
  | none => false

/-- `option == 0` (`None == 0` is false). -/
def optEqZero : Option Nat → Bool
  | some n => decide (n = 0)
  | none => false

/-- The `MultipartEncoder` state.  `boundary` already carries the leading
`--`.  `iterPos` is the position of the `_fields_iter` iterator over
`fieldsList`.  `lenCache` is the memoised `_len`. -/
structure Enc where
  boundary : Bytes
  fieldsList : List (Bytes × Data)
  iterPos : Nat
  currentData : Option Body
  finished : Bool
  buffer : CustomBytesBuffer
  lenCache : Option Nat
deriving DecidableEq

/-- Ghost record of one retraction performed in `_next_tuple`:
`removed` is what `truncate()` discarded (the bytes from the post-seek
cursor to the end of storage), `truncPos` that cursor position. -/
structure RetractEvent where
  removed : Bytes
  truncPos : Nat
deriving DecidableEq

/-- `_next_tuple`: pull the next field; at iterator exhaustion, if not yet
finished, seek back two bytes, truncate, and write `--\r\n`. -/
def nextTuple (e : Enc) : Option (Bytes × Data) × Enc × List RetractEvent :=
  match e.fieldsList[e.iterPos]? with
  | some t => (some t, { e with iterPos := e.iterPos + 1 }, [])
  | none =>
      if e.finished then (none, e, [])
      else
        let b1 := e.buffer.seekBack2
        let removed := b1.unread
        let b2 := b1.truncateHere
        let b3 := (b2.write (strBytes "--\r\n")).2
        (none, { e with buffer := b3 }, [⟨removed, b1.pos⟩])

/-- `_load_new_current_data`: write the next field's headers and activate
its body, or mark the encoder finished. -/
def loadNewCurrentData (e : Enc) : Nat × Enc × List RetractEvent :=
  match nextTuple e with
  | (none, e2, evs) => (0, { e2 with finished := true }, evs)
  | (some (hdr, d), e2, evs) =>
      let (w, b) := e2.buffer.write hdr
      (w, { e2 with buffer := b, currentData := some (coerceData d) }, evs)

/-- `_consume_current_data` (`size = none` models Python's `size=None`,
converted internally to `-1`). -/
def consumeCurrentData (e : Enc) (size : Option Nat) :
    Nat × Enc × List RetractEvent :=
  let step1 : Nat × Enc × List RetractEvent :=
    match e.currentData with
    | none =>
        let (w1, b1) := e.buffer.write e.boundary
        let (w2, b2) := b1.write crlf
        let (w3, e3, evs) := loadNewCurrentData { e with buffer := b2 }
        (w1 + w2 + w3, e3, evs)
    | some bd =>
        if optGtZero (superLenBody bd) then
          let (chunk, bd2) := bd.readB size
          let (w, b) := e.buffer.write chunk
          (w, { e with buffer := b, currentData := some bd2 }, [])
        else (0, e, [])
  let (w, e2, evs) := step1
  if optEqZero (superLenOpt e2.currentData) && !e2.finished then
    let (w2, b) := e2.buffer.write (crlf ++ e2.boundary ++ crlf)
    (w + w2, { e2 with buffer := b }, evs)
  else (w, e2, evs)

/-- The `while` loop of `_load_bytes` for an integer `size`, with explicit
fuel (each pass runs `_consume_current_data` then `_load_new_current_data`,
breaking once `finished`). -/
def loadLoop : Nat → Nat → Nat → Enc → List RetractEvent →
    Enc × List RetractEvent
  | 0, _, _, e, evs => (e, evs)
  | fuel + 1, sz, written, e, evs =>
      if written < sz then
        let (w1, e1, v1) := consumeCurrentData e (some (sz - written))
        let (w2, e2, v2) := loadNewCurrentData e1
        if e2.finished then (e2, evs ++ v1 ++ v2)
        else loadLoop fuel sz (written + w1 + w2) e2 (evs ++ v1 ++ v2)
      else (e, evs)

/-- Result of `_load_bytes`.  `crashed = true` records the `TypeError`
Python raises from `size - written` when `size` is `None` (the state
mutations made before the exception are kept; the final
`seek(orig_position)` does not happen). -/
structure LoadResult where
  crashed : Bool
  enc : Enc
  orig : Nat
  events : List RetractEvent
deriving DecidableEq

/-- `_load_bytes`. -/
def loadBytesFn (e : Enc) (size : Option Nat) : LoadResult :=
  let b0 := e.buffer.smartTruncate
  let orig := b0.pos
  let e0 := { e with buffer := b0.seekEnd }
  let (w0, e1, v0) := consumeCurrentData e0 size
  match size with
  | none => ⟨true, e1, orig, v0⟩
  | some sz =>
      let (e2, evs) := loadLoop (sz + e1.fieldsList.length + 2) sz w0 e1 v0
      ⟨false, { e2 with buffer := e2.buffer.seekTo orig }, orig, evs⟩

/-- Result of `read`: `out = none` means the call raised (`TypeError`). -/
structure ReadResult where
  out : Option Bytes
  enc : Enc
  orig : Nat
  events : List RetractEvent
deriving DecidableEq

/-- `read(size)`. -/
def encRead (e : Enc) (size : Option Nat) : ReadResult :=
  match size with
  | some sz =>
      let bytesLength := e.buffer.len
      let amt := if bytesLength < sz then sz - bytesLength else 0
      let r := loadBytesFn e (some amt)
      let (o, b) := r.enc.buffer.readN sz
      ⟨some o, { r.enc with buffer := b }, r.orig, r.events⟩
  | none =>
      let r := loadBytesFn e none
      ⟨none, r.enc, r.orig, r.events⟩

/-- `to_string`: `self.read()`. -/
def encToString (e : Enc) : ReadResult := encRead e none

/-- The loop of `_calculate_length`: accumulate
`boundary_len + len(header) + super_len(data) + 4` per field, then
`boundary_len + 4`; on a length-less body the `+=` raises before
committing, leaving the partial `_len` behind (second component). -/
def calcLengthFold (blen : Nat) : List (Bytes × Data) → Nat → Option Nat × Nat
  | [], acc => (some (acc + blen + 4), acc + blen + 4)
  | (h, d) :: rest, acc =>
      match superLenData d with
      | some n => calcLengthFold blen rest (acc + blen + h.length + n + 4)
      | none => (none, acc)

/-- `__len__` / `total_length()`: first component `none` models the raised
`TypeError` (the `LengthUnknown` failure); the returned state carries the
`_len` left behind. -/
def encLenCall (e : Enc) : Option Nat × Enc :=
  match e.lenCache with
  | some v => (some v, e)
  | none =>
      let (ok, v) := calcLengthFold e.boundary.length e.fieldsList 0
      match ok with
      | some t => (some t, { e with lenCache := some t })
      | none => (none, { e with lenCache := some v })

/-- A fresh encoder for boundary value `bval` (the stored boundary is
`--` ++ `bval`) and a pre-rendered field list. -/
def freshEnc (bval : Bytes) (fields : List (Bytes × Data)) : Enc :=
  ⟨strBytes "--" ++ bval, fields, 0, none, false, ⟨[], 0⟩, none⟩

/-- Fields whose bodies are in-memory byte strings. -/
def memFields (fs : List (Bytes × Bytes)) : List (Bytes × Data) :=
  fs.map fun p => (p.1, Data.mem ⟨p.2, 0⟩)

/-- `k` successive calls of `read(n)`, concatenating the outputs
(a raised call contributes nothing). -/
def readChunks (e : Enc) (n : Nat) : Nat → Bytes × Enc
  | 0 => ([], e)
  | k + 1 =>
      let r := encRead e (some n)
      let rest := readChunks r.enc n k
      (r.out.getD [] ++ rest.1, rest.2)

/-- The byte stream that remains to be produced when the current body still
has `r` unread bytes and the fields `fs` are still to come: the optimistic
separator `\r\n--{boundary}\r\n` after each body, with the final separator
retracted to `\r\n--{boundary}--\r\n`. -/
def tailBytes (bl : Bytes) : Bytes → List (Bytes × Bytes) → Bytes
  | r, [] => r ++ crlf ++ bl ++ strBytes "--\r\n"
  | r, (h, b) :: fs => r ++ crlf ++ bl ++ crlf ++ h ++ tailBytes bl b fs

/-- The full correctly-framed multipart body:
`--{boundary}\r\n{headers}{body}\r\n` per field, closed by
`--{boundary}--\r\n`. -/
def encodedBody (bl : Bytes) : List (Bytes × Bytes) → Bytes
  | [] => bl ++ strBytes "--\r\n"
  | (h, b) :: fs => bl ++ crlf ++ h ++ tailBytes bl b fs

/-- The spec's total-length formula:
`sum(boundary_len + len(header) + body_len + 4) + boundary_len + 4`. -/
def specTotal (bl : Bytes) (fs : List (Bytes × Bytes)) : Nat :=
  (fs.map fun p => bl.length + p.1.length + p.2.length + 4).sum
    + bl.length + 4

def Data.isMem : Data → Bool
  | .mem _ => true
  | _ => false

def Body.isMem : Body → Bool
  | .mem _ => true
  | _ => false

def isMemOpt : Option Body → Bool
  | none => true
  | some b => b.isMem

/-- Well-formedness for the states quantified over in the general read
theorems: all bodies are in-memory byte sources, and a finished encoder has
an exhausted field iterator. -/
def WFEnc (e : Enc) : Prop :=
  (∀ p ∈ e.fieldsList, p.2.isMem = true) ∧
  isMemOpt e.currentData = true ∧
  (e.finished = true → e.fieldsList.length ≤ e.iterPos)

instance (e : Enc) : Decidable (WFEnc e) := by
  unfold WFEnc; infer_instance

/-- The headers `urllib3` renders for a simple `("field", "value")` pair. -/
def fieldHeader : Bytes :=
  strBytes "Content-Disposition: form-data; name=\"field\"\r\n\r\n"

/-- The running example: fields `[("field", "value")]`,
boundary `"boundary"`. -/
def exEnc : Enc :=
  freshEnc (strBytes "boundary") (memFields [(fieldHeader, strBytes "value")])

/-- The finished, fully drained state reached by one large read on an
encoder with an empty field list. -/
def c5State : Enc := (encRead (freshEnc (strBytes "boundary") []) (some 26)).enc

/-- A file-backed field whose file has already been read to offset 2. -/
def c10Enc : Enc :=
  freshEnc (strBytes "b") [(strBytes "CD\r\n\r\n", Data.file ⟨strBytes "data", 2⟩)]

/-- Mid-load well-formedness: every field body and the active body are
in-memory sources, a finished encoder has exhausted its field iterator,
and (during `_load_bytes`) the buffer cursor sits at end-of-storage. -/
def PreInv (e : Enc) : Prop :=
  (∀ p ∈ e.fieldsList, p.2.isMem = true) ∧
  isMemOpt e.currentData = true ∧
  (e.finished = true → e.fieldsList.length ≤ e.iterPos) ∧
  e.buffer.pos = e.buffer.storage.length

/-- `PreInv` plus: after a consume step, a missing current body implies
the encoder is finished. -/
def LInv (e : Enc) : Prop :=
  PreInv e ∧ (e.currentData = none → e.finished = true)

/-- Overwrite the memoised `_len`. -/
def setCache (e : Enc) (v : Option Nat) : Enc := { e with lenCache := v }

/-- A finished, fully drained encoder state with an exhausted in-memory
current body, used to instantiate the finished-read theorem. -/
def c5Wit : Enc :=
  ⟨strBytes "--boundary", memFields [(fieldHeader, strBytes "value")], 1,
   some (.mem ⟨strBytes "value", 5⟩), true, ⟨strBytes "xyz", 3⟩, none⟩

end MPEnc

namespace MPEnc

set_option maxRecDepth 8000

/-! ### Basic buffer lemmas -/

theorem write_at_end (s d : Bytes) :
    CustomBytesBuffer.write ⟨s, s.length⟩ d =
      (d.length, ⟨s ++ d, s.length + d.length⟩) := by
  simp [CustomBytesBuffer.write, List.drop_eq_nil_of_le]

theorem unread_length (b : CustomBytesBuffer) : b.unread.length = b.len := by
  simp [CustomBytesBuffer.unread, CustomBytesBuffer.len,
    CustomBytesBuffer.getEnd]

theorem smartTruncate_unread (b : CustomBytesBuffer) :
    b.smartTruncate.unread = b.unread := by
  unfold CustomBytesBuffer.smartTruncate
  split
  · simp [CustomBytesBuffer.unread]
  · rfl

theorem smartTruncate_len (b : CustomBytesBuffer) :
    b.smartTruncate.len = b.len := by
  have h1 := congrArg List.length (smartTruncate_unread b)
  rwa [unread_length, unread_length] at h1

theorem smartTruncate_fires (b : CustomBytesBuffer) (h : b.len ≤ b.getEnd - b.len) :
    b.smartTruncate = ⟨b.unread, 0⟩ := by
  unfold CustomBytesBuffer.smartTruncate
  simp [h]

theorem smartTruncate_pos_le (b : CustomBytesBuffer) :
    b.smartTruncate.pos + b.smartTruncate.len = b.smartTruncate.storage.length := by
  unfold CustomBytesBuffer.smartTruncate
  split
  · simp [CustomBytesBuffer.len, CustomBytesBuffer.getEnd,
      CustomBytesBuffer.unread]
  · rename_i h
    simp only [CustomBytesBuffer.len, CustomBytesBuffer.getEnd] at h ⊢
    omega

theorem readN_out (b : CustomBytesBuffer) (n : Nat) :
    ((b.readN n).1).length = min n b.len := by
  simp only [CustomBytesBuffer.readN, List.length_take, unread_length]

/-! ### Claim theorems: concrete evaluations -/

/-- Claim C7: `smart_truncate` compacts (drops the consumed prefix and
resets the cursor to 0) exactly when the already-read byte count is at
least the unread byte count, is a no-op otherwise, and always preserves
the sequence of unread bytes. -/
theorem smartTruncate_compacts_iff (b : CustomBytesBuffer)
    (hb : b.pos ≤ b.storage.length) :
    b.smartTruncate.unread = b.unread ∧
    (b.len ≤ b.pos → b.smartTruncate = ⟨b.unread, 0⟩) ∧
    (b.pos < b.len → b.smartTruncate = b) := by
  refine ⟨smartTruncate_unread b, fun h => ?_, fun h => ?_⟩
  · refine smartTruncate_fires b ?_
    simp only [CustomBytesBuffer.len, CustomBytesBuffer.getEnd] at h ⊢
    omega
  · unfold CustomBytesBuffer.smartTruncate
    have : ¬ (b.len ≤ b.getEnd - b.len) := by
      simp only [CustomBytesBuffer.len, CustomBytesBuffer.getEnd] at h ⊢
      omega
    simp [this]

theorem smartTruncate_compacts_iff_witness :
    (⟨strBytes "abcde", 3⟩ : CustomBytesBuffer).pos ≤
      (⟨strBytes "abcde", 3⟩ : CustomBytesBuffer).storage.length ∧
    ((⟨strBytes "abcde", 3⟩ : CustomBytesBuffer).smartTruncate.unread =
        (⟨strBytes "abcde", 3⟩ : CustomBytesBuffer).unread ∧
      ((⟨strBytes "abcde", 3⟩ : CustomBytesBuffer).len ≤ 3 →
        (⟨strBytes "abcde", 3⟩ : CustomBytesBuffer).smartTruncate =
          ⟨(⟨strBytes "abcde", 3⟩ : CustomBytesBuffer).unread, 0⟩) ∧
      (3 < (⟨strBytes "abcde", 3⟩ : CustomBytesBuffer).len →
        (⟨strBytes "abcde", 3⟩ : CustomBytesBuffer).smartTruncate =
          ⟨strBytes "abcde", 3⟩)) :=
  ⟨by decide, smartTruncate_compacts_iff ⟨strBytes "abcde", 3⟩ (by decide)⟩

/-- Claim C4 is a code bug: `read()` with no size always raises a
`TypeError` (`size - written` with `size = None` in `_load_bytes`), for
every encoder state, instead of returning the remaining bytes; hence
`to_string()` also raises. -/
theorem unbounded_read_raises (e : Enc) :
    (encRead e none).out = none ∧ (encToString e).out = none := by
  exact ⟨rfl, rfl⟩

/-- Claim C1 is a code bug: on fields `[("field", "value")]` with boundary
`"boundary"`, `total_length()` is 81, yet reading with `read(1)` never
exhausts the stream: after the body is consumed, each call appends another
spurious `\r\n--boundary\r\n` separator, so 90 single-byte reads yield 90
bytes (more than the advertised 81) with the encoder still not finished. -/
theorem totalLength_chunked_read_diverges :
    (encLenCall exEnc).1 = some 81 ∧
    (readChunks exEnc 1 90).1.length = 90 ∧
    (readChunks exEnc 1 90).2.finished = false := by decide

/-- Claim C3 is a code bug: an unbounded `read()` raises a `TypeError`
(so no chunked read can agree with it), and repeated `read(5)` on the
example body also never terminates: 24 reads return 120 bytes (more than
the 81-byte body) without reaching the finished state. -/
theorem chunked_vs_unbounded_read :
    (encRead exEnc none).out = none ∧
    (readChunks exEnc 5 24).1.length = 120 ∧
    (readChunks exEnc 5 24).2.finished = false := by decide


/-- Counterexample to claim C5: `c5State` is finished with a drained
buffer, yet a further `read(1)` returns `"-"` (the code re-emits
`--boundary\r\n` whenever `_current_data` is still `None`), not the empty
byte string. -/
theorem finished_read_not_empty :
    c5State.finished = true ∧ c5State.buffer.len = 0 ∧
    (encRead c5State (some 1)).out = some (strBytes "-") ∧
    (encRead c5State (some 1)).out ≠ some [] := by decide

/-- Counterexample to claim C6: on the example encoder, `read(62)` lands
exactly at the end of the headers plus two body bytes, the field iterator
is polled with body data still pending, and the retraction at the
transition to `finished` removes the two body bytes `"va"` (at buffer
position 60), not a `\r\n` pair. -/
theorem retraction_removes_body_bytes :
    (encRead exEnc (some 62)).events = [⟨strBytes "va", 60⟩] ∧
    strBytes "va" ≠ crlf ∧
    (encRead exEnc (some 62)).enc.finished = true := by decide


/-- Counterexample to claim C10: with a 4-byte file already at offset 2,
`total_length()` reports 24 (it measures the raw file with `fstat`, i.e.
the full size), while the complete emitted stream has only 22 bytes (the
body contributes just the remaining `"ta"`); so the length used by
`total_length()` is not the remaining byte count. -/
theorem fileLength_total_vs_emitted :
    (encLenCall c10Enc).1 = some 24 ∧
    (encRead c10Enc (some 100)).out =
      some (strBytes "--b\r\nCD\r\n\r\nta\r\n--b--\r\n") ∧
    (encRead c10Enc (some 100)).enc.finished = true ∧
    (strBytes "--b\r\nCD\r\n\r\nta\r\n--b--\r\n").length = 22 ∧
    (22 : Nat) ≠ 24 := by decide

/-- Claim C10 amended: the emitted body uses the remaining byte count
(`FileWrapper.__len__` is `super_len(fd) - fd.tell()`) and so contributes
only the bytes after the current offset to the stream, but
`total_length()` measures the raw file object, i.e. its full `fstat`
size including the already-consumed prefix. -/
theorem fileLength_remaining_vs_total :
    (∀ f : PyFile, superLenData (.file f) = some f.contents.length ∧
      superLenBody (coerceData (.file f)) =
        some (f.contents.length - f.pos)) ∧
    (encLenCall c10Enc).1 =
      some ((strBytes "--b\r\nCD\r\n\r\nta\r\n--b--\r\n").length + 2) ∧
    (encRead c10Enc (some 100)).out =
      some (strBytes "--b\r\nCD\r\n\r\nta\r\n--b--\r\n") := by
  refine ⟨fun f => ⟨rfl, rfl⟩, by decide, by decide⟩

theorem write_end (b : CustomBytesBuffer) (d : Bytes)
    (hb : b.pos = b.storage.length) :
    b.write d = (d.length, ⟨b.storage ++ d, b.pos + d.length⟩) := by
  cases b with
  | mk s p =>
    simp only at hb
    subst hb
    simp [CustomBytesBuffer.write, List.drop_eq_nil_of_le]

/-- Evaluation of `_consume_current_data` on a mid-load state whose current
body is an in-memory source with `rb.length - rp` remaining bytes, with a
request large enough to drain it: the whole remainder plus the optimistic
separator `\r\n{boundary}\r\n` is appended. -/
theorem consume_mem_all (bl : Bytes) (L : List (Bytes × Data)) (i : Nat)
    (S rb : Bytes) (rp k : Nat) (cache : Option Nat)
    (hk : rb.length - rp ≤ k) :
    consumeCurrentData
      ⟨bl, L, i, some (.mem ⟨rb, rp⟩), false, ⟨S, S.length⟩, cache⟩ (some k) =
    ((rb.length - rp) + (crlf ++ bl ++ crlf).length,
     ⟨bl, L, i, some (.mem ⟨rb, rp + (rb.length - rp)⟩), false,
      ⟨(S ++ rb.drop rp) ++ (crlf ++ bl ++ crlf),
       ((S ++ rb.drop rp) ++ (crlf ++ bl ++ crlf)).length⟩, cache⟩,
     []) := by
  by_cases hpos : 0 < rb.length - rp
  · have hchunk : (rb.drop rp).take k = rb.drop rp :=
      List.take_of_length_le (by simpa using hk)
    have hmin : min k (rb.length - rp) = rb.length - rp := Nat.min_eq_right hk
    have h0 : rb.length - (rp + (rb.length - rp)) = 0 := by omega
    simp [consumeCurrentData, superLenBody, optGtZero, hpos, Body.readB,
      CustomBytesBuffer.readN, CustomBytesBuffer.unread,
      CustomBytesBuffer.len, CustomBytesBuffer.getEnd, hchunk, hmin,
      write_end, superLenOpt, optEqZero, h0]
    omega
  · have hrem : rb.length - rp = 0 := by omega
    have hdrop : rb.drop rp = [] := List.drop_eq_nil_of_le (by omega)
    simp [consumeCurrentData, superLenBody, optGtZero, hrem, Body.readB,
      CustomBytesBuffer.len, CustomBytesBuffer.getEnd,
      superLenOpt, optEqZero, write_end, hdrop]

theorem crlf_length : crlf.length = 2 := by decide

theorem closing_length : (strBytes "--\r\n").length = 4 := by decide

theorem tailBytes_nil_length (bl r : Bytes) :
    (tailBytes bl r []).length = r.length + 2 + bl.length + 4 := by
  simp [tailBytes, crlf_length, closing_length]
  omega

theorem tailBytes_cons_length (bl r h b : Bytes) (fs : List (Bytes × Bytes)) :
    (tailBytes bl r ((h, b) :: fs)).length =
      r.length + 2 + bl.length + 2 + h.length + (tailBytes bl b fs).length := by
  simp [tailBytes, crlf_length]
  omega

theorem tailBytes_length_pos (bl r : Bytes) (fs : List (Bytes × Bytes)) :
    6 ≤ (tailBytes bl r fs).length := by
  cases fs with
  | nil => rw [tailBytes_nil_length]; omega
  | cons p fs =>
      cases p with
      | mk h b =>
          rw [tailBytes_cons_length]
          have := tailBytes_length_pos bl b fs
          omega

theorem take_end2 (X : Bytes) :
    (X ++ crlf).take ((X ++ crlf).length - 2) = X := by
  have h2 : (X ++ crlf).length - 2 = X.length := by
    simp [crlf_length]
  rw [h2, List.take_left]

theorem drop_end2 (X : Bytes) :
    (X ++ crlf).drop ((X ++ crlf).length - 2) = crlf := by
  have h2 : (X ++ crlf).length - 2 = X.length := by
    simp [crlf_length]
  rw [h2, List.drop_left]

theorem getElem?_of_drop_cons {α : Type} {l : List α} {i : Nat} {x : α}
    {xs : List α} (h : l.drop i = x :: xs) : l[i]? = some x := by
  have h1 := List.getElem?_drop l i 0
  rw [h] at h1
  simpa using h1.symm

theorem drop_succ_of_drop_cons' {α : Type} {l : List α} {i : Nat} {x : α}
    {xs : List α} (h : l.drop i = x :: xs) : l.drop (i + 1) = xs := by
  have h1 := List.drop_drop 1 i l
  rw [h] at h1
  simpa using h1.symm

/-- `_load_new_current_data` when another field is available: its headers
are appended and its body becomes current. -/
theorem loadNew_some (bl : Bytes) (L : List (Bytes × Data)) (i : Nat)
    (cur : Option Body) (fin : Bool) (S : Bytes) (cache : Option Nat)
    (h : Bytes) (d : Data) (hget : L[i]? = some (h, d)) :
    loadNewCurrentData ⟨bl, L, i, cur, fin, ⟨S, S.length⟩, cache⟩ =
      (h.length,
       ⟨bl, L, i + 1, some (coerceData d), fin, ⟨S ++ h, (S ++ h).length⟩, cache⟩,
       []) := by
  simp [loadNewCurrentData, nextTuple, hget, write_end]

/-- `_load_new_current_data` at iterator exhaustion with `finished` still
false: the retraction rewrites the last two bytes into `--\r\n` and the
encoder becomes finished. -/
theorem loadNew_retract (bl : Bytes) (L : List (Bytes × Data)) (i : Nat)
    (cur : Option Body) (S : Bytes) (cache : Option Nat)
    (hget : L[i]? = none) :
    loadNewCurrentData ⟨bl, L, i, cur, false, ⟨S, S.length⟩, cache⟩ =
      (0,
       ⟨bl, L, i, cur, true,
        ⟨S.take (S.length - 2) ++ strBytes "--\r\n",
         (S.take (S.length - 2) ++ strBytes "--\r\n").length⟩, cache⟩,
       [⟨S.drop (S.length - 2), S.length - 2⟩]) := by
  have hlen : (S.take (S.length - 2)).length = S.length - 2 := by
    simp [List.length_take]
  have hw := write_end ⟨S.take (S.length - 2), S.length - 2⟩ (strBytes "--\r\n")
    (by simp [hlen])
  simp [loadNewCurrentData, nextTuple, hget, CustomBytesBuffer.seekBack2,
    CustomBytesBuffer.truncateHere, CustomBytesBuffer.unread, hw,
    closing_length]

/-- `_load_new_current_data` at iterator exhaustion when already finished:
a no-op. -/
theorem loadNew_finished (bl : Bytes) (L : List (Bytes × Data)) (i : Nat)
    (cur : Option Body) (buf : CustomBytesBuffer) (cache : Option Nat)
    (hget : L[i]? = none) :
    loadNewCurrentData ⟨bl, L, i, cur, true, buf, cache⟩ =
      (0, ⟨bl, L, i, cur, true, buf, cache⟩, []) := by
  simp [loadNewCurrentData, nextTuple, hget]

/-- The top-up loop of `_load_bytes`, entered mid-load with an in-memory
current body (`rb.length - rp` bytes remaining) and the fields `fs` still
to come, with a byte budget covering the whole rest of the stream: it
appends exactly `tailBytes` (each remaining body with its optimistic
separator, the last separator retracted into the closing sequence),
finishes the encoder, and performs exactly one retraction, located at the
final `\r\n` pair. -/
theorem loadLoop_frames (fs : List (Bytes × Bytes)) :
    ∀ (F : List (Bytes × Bytes)) (i : Nat) (bl S rb : Bytes) (rp : Nat)
      (cache : Option Nat) (fuel sz w : Nat) (evs : List RetractEvent),
      F.drop i = fs →
      fs.length + 1 ≤ fuel →
      (tailBytes bl (rb.drop rp) fs).length + w ≤ sz →
      (loadLoop fuel sz w
          ⟨bl, memFields F, i, some (.mem ⟨rb, rp⟩), false, ⟨S, S.length⟩, cache⟩
          evs).2 =
        evs ++ [⟨crlf, S.length + (tailBytes bl (rb.drop rp) fs).length - 4⟩] ∧
      (loadLoop fuel sz w
          ⟨bl, memFields F, i, some (.mem ⟨rb, rp⟩), false, ⟨S, S.length⟩, cache⟩
          evs).1.finished = true ∧
      (loadLoop fuel sz w
          ⟨bl, memFields F, i, some (.mem ⟨rb, rp⟩), false, ⟨S, S.length⟩, cache⟩
          evs).1.buffer =
        ⟨S ++ tailBytes bl (rb.drop rp) fs,
         (S ++ tailBytes bl (rb.drop rp) fs).length⟩ := by
  induction fs with
  | nil =>
      intro F i bl S rb rp cache fuel sz w evs hF hfuel hsz
      obtain ⟨fuel, rfl⟩ : ∃ f, fuel = f + 1 := ⟨fuel - 1, by omega⟩
      have htl := tailBytes_nil_length bl (rb.drop rp)
      have hd : (rb.drop rp).length = rb.length - rp := List.length_drop rp rb
      have hw : w < sz := by omega
      have hk : rb.length - rp ≤ sz - w := by omega
      have hget : (memFields F)[i]? = none := by
        refine List.getElem?_eq_none ?_
        have : F.length ≤ i := by
          rw [← List.drop_eq_nil_iff]
          exact hF
        simpa [memFields] using this
      rw [loadLoop, if_pos hw,
        consume_mem_all bl (memFields F) i S rb rp (sz - w) cache hk]
      dsimp only
      rw [loadNew_retract bl (memFields F) i _ _ cache hget]
      dsimp only
      rw [if_pos (rfl : true = true)]
      dsimp only
      have hS2 : (S ++ rb.drop rp) ++ (crlf ++ bl ++ crlf) =
          (S ++ rb.drop rp ++ crlf ++ bl) ++ crlf := by
        simp [List.append_assoc]
      rw [hS2, take_end2, drop_end2]
      have hlen2 : ((S ++ rb.drop rp ++ crlf ++ bl) ++ crlf).length - 2 =
          S.length + (rb.drop rp).length + 2 + bl.length := by
        simp [crlf_length]
        omega
      refine ⟨?_, rfl, ?_⟩
      · rw [hlen2]
        have h4 : S.length + (rb.drop rp).length + 2 + bl.length =
            S.length + (tailBytes bl (rb.drop rp) []).length - 4 := by omega
        rw [h4]
        simp
      · have h5 : (S ++ rb.drop rp ++ crlf ++ bl) ++ strBytes "--\r\n" =
            S ++ tailBytes bl (rb.drop rp) [] := by
          simp [tailBytes, List.append_assoc]
        rw [h5]
  | cons p fs ih =>
      obtain ⟨h, b⟩ := p
      intro F i bl S rb rp cache fuel sz w evs hF hfuel hsz
      obtain ⟨fuel, rfl⟩ : ∃ f, fuel = f + 1 := ⟨fuel - 1, by omega⟩
      have htl := tailBytes_cons_length bl (rb.drop rp) h b fs
      have htl' := tailBytes_length_pos bl b fs
      have hd : (rb.drop rp).length = rb.length - rp := List.length_drop rp rb
      have hw : w < sz := by omega
      have hk : rb.length - rp ≤ sz - w := by omega
      have hget : (memFields F)[i]? = some (h, Data.mem ⟨b, 0⟩) := by
        have h1 : F[i]? = some (h, b) := getElem?_of_drop_cons hF
        simp [memFields, List.getElem?_map, h1]
      rw [loadLoop, if_pos hw,
        consume_mem_all bl (memFields F) i S rb rp (sz - w) cache hk]
      dsimp only
      rw [loadNew_some bl (memFields F) i _ false _ cache h (Data.mem ⟨b, 0⟩) hget]
      dsimp only [coerceData]
      rw [if_neg Bool.false_ne_true]
      have hF' : F.drop (i + 1) = fs := drop_succ_of_drop_cons' hF
      have hlnsep : (crlf ++ bl ++ crlf).length = 2 + bl.length + 2 := by
        simp only [List.length_append, crlf_length]
      have hfuel2 : fs.length + 1 ≤ fuel := by
        simp only [List.length_cons] at hfuel
        omega
      have hrec := ih F (i + 1) bl
        (((S ++ rb.drop rp) ++ (crlf ++ bl ++ crlf)) ++ h) b 0 cache fuel sz
        (w + (rb.length - rp + (crlf ++ bl ++ crlf).length) + h.length)
        (evs ++ [] ++ []) hF' hfuel2
        (by
          simp only [List.drop_zero]
          omega)
      obtain ⟨ih1, ih2, ih3⟩ := hrec
      have htail : (((S ++ rb.drop rp) ++ (crlf ++ bl ++ crlf)) ++ h) ++
          tailBytes bl (List.drop 0 b) fs =
          S ++ tailBytes bl (rb.drop rp) ((h, b) :: fs) := by
        simp [tailBytes, List.append_assoc]
      refine ⟨?_, ?_, ?_⟩
      · rw [ih1]
        have hpos : (((S ++ rb.drop rp) ++ (crlf ++ bl ++ crlf)) ++ h).length +
            (tailBytes bl (List.drop 0 b) fs).length - 4 =
            S.length + (tailBytes bl (rb.drop rp) ((h, b) :: fs)).length - 4 := by
          simp only [List.drop_zero, List.length_append, crlf_length]
          omega
        rw [hpos]
        simp
      · rw [ih2]
      · rw [ih3, htail]

/-- `loadNewCurrentData` with an available field, for a buffer whose cursor
sits at the end of storage. -/
theorem loadNew_some2 (bl : Bytes) (L : List (Bytes × Data)) (i : Nat)
    (cur : Option Body) (fin : Bool) (bs : Bytes) (bp : Nat)
    (cache : Option Nat) (h : Bytes) (d : Data)
    (hbuf : bp = bs.length) (hget : L[i]? = some (h, d)) :
    loadNewCurrentData ⟨bl, L, i, cur, fin, ⟨bs, bp⟩, cache⟩ =
      (h.length,
       ⟨bl, L, i + 1, some (coerceData d), fin, ⟨bs ++ h, bp + h.length⟩, cache⟩,
       []) := by
  subst hbuf
  rw [loadNew_some bl L i cur fin bs cache h d hget]
  simp

/-- `_consume_current_data` on a state with no current body and a nonempty
next field body: writes `{boundary}\r\n{headers}` and activates the body
(no separator, since the fresh body is nonempty). -/
theorem consume_none_field (bl : Bytes) (L : List (Bytes × Data)) (i : Nat)
    (S : Bytes) (cache : Option Nat) (sz : Option Nat)
    (h rb : Bytes) (hget : L[i]? = some (h, Data.mem ⟨rb, 0⟩))
    (hrb : rb ≠ []) :
    consumeCurrentData ⟨bl, L, i, none, false, ⟨S, S.length⟩, cache⟩ sz =
      (bl.length + 2 + h.length,
       ⟨bl, L, i + 1, some (.mem ⟨rb, 0⟩), false,
        ⟨((S ++ bl) ++ crlf) ++ h, (((S ++ bl) ++ crlf) ++ h).length⟩, cache⟩,
       []) := by
  have hlen0 : rb.length ≠ 0 := fun hh => hrb (List.length_eq_zero.mp hh)
  simp only [consumeCurrentData]
  rw [write_end ⟨S, S.length⟩ bl rfl]
  dsimp only
  rw [write_end ⟨S ++ bl, S.length + bl.length⟩ crlf (by simp [Nat.add_assoc])]
  dsimp only
  rw [loadNew_some2 bl L i none false ((S ++ bl) ++ crlf)
    (S.length + bl.length + crlf.length) cache h (Data.mem ⟨rb, 0⟩)
    (by simp [Nat.add_assoc]) hget]
  dsimp only [coerceData]
  simp [superLenOpt, superLenBody, optEqZero, CustomBytesBuffer.len,
    CustomBytesBuffer.getEnd, hlen0, crlf_length]
  omega

/-- `_consume_current_data` on a state with no current body whose next
field has an empty body: the separator is written immediately after the
headers (and will be written again by the next consume call). -/
theorem consume_none_field_emptyb (bl : Bytes) (L : List (Bytes × Data))
    (i : Nat) (S : Bytes) (cache : Option Nat) (sz : Option Nat)
    (h : Bytes) (hget : L[i]? = some (h, Data.mem ⟨[], 0⟩)) :
    consumeCurrentData ⟨bl, L, i, none, false, ⟨S, S.length⟩, cache⟩ sz =
      (bl.length + 2 + h.length + (2 + bl.length + 2),
       ⟨bl, L, i + 1, some (.mem ⟨[], 0⟩), false,
        ⟨(((S ++ bl) ++ crlf) ++ h) ++ (crlf ++ bl ++ crlf),
         ((((S ++ bl) ++ crlf) ++ h) ++ (crlf ++ bl ++ crlf)).length⟩, cache⟩,
       []) := by
  simp only [consumeCurrentData]
  rw [write_end ⟨S, S.length⟩ bl rfl]
  dsimp only
  rw [write_end ⟨S ++ bl, S.length + bl.length⟩ crlf (by simp [Nat.add_assoc])]
  dsimp only
  rw [loadNew_some2 bl L i none false ((S ++ bl) ++ crlf)
    (S.length + bl.length + crlf.length) cache h (Data.mem ⟨[], 0⟩)
    (by simp [Nat.add_assoc]) hget]
  dsimp only [coerceData]
  rw [write_end ⟨((S ++ bl) ++ crlf) ++ h,
    S.length + bl.length + crlf.length + h.length⟩ (crlf ++ bl ++ crlf)
    (by simp [Nat.add_assoc])]
  simp [superLenOpt, superLenBody, optEqZero, CustomBytesBuffer.len,
    CustomBytesBuffer.getEnd, crlf_length]
  omega

/-- `_consume_current_data` on a fresh encoder with an empty field list:
writes `{boundary}\r\n`, then the inner `_load_new_current_data` retracts
those two bytes into the closing sequence and finishes. -/
theorem consume_none_nofields (bl : Bytes) (L : List (Bytes × Data))
    (i : Nat) (S : Bytes) (cache : Option Nat) (sz : Option Nat)
    (hget : L[i]? = none) :
    consumeCurrentData ⟨bl, L, i, none, false, ⟨S, S.length⟩, cache⟩ sz =
      (bl.length + 2 + 0,
       ⟨bl, L, i, none, true,
        ⟨(S ++ bl) ++ strBytes "--\r\n", ((S ++ bl) ++ strBytes "--\r\n").length⟩,
        cache⟩,
       [⟨crlf, (S ++ bl).length⟩]) := by
  simp only [consumeCurrentData]
  rw [write_end ⟨S, S.length⟩ bl rfl]
  dsimp only
  rw [write_end ⟨S ++ bl, S.length + bl.length⟩ crlf (by simp [Nat.add_assoc])]
  dsimp only
  have hbuf : S.length + bl.length + crlf.length = ((S ++ bl) ++ crlf).length := by
    simp [Nat.add_assoc]
  rw [show (⟨(S ++ bl) ++ crlf, S.length + bl.length + crlf.length⟩ :
      CustomBytesBuffer) = ⟨(S ++ bl) ++ crlf, ((S ++ bl) ++ crlf).length⟩ by
    rw [hbuf]]
  rw [loadNew_retract bl L i none ((S ++ bl) ++ crlf) cache hget]
  rw [take_end2, drop_end2]
  have h2 : ((S ++ bl) ++ crlf).length - 2 = (S ++ bl).length := by
    simp [crlf_length]
    omega
  rw [h2]
  simp [superLenOpt, optEqZero, crlf_length]

/-- `_consume_current_data` on a finished encoder whose `_current_data`
is still `None` (the empty-field-list terminal state): it still writes
`{boundary}\r\n` again on every call. -/
theorem consume_none_finished (bl : Bytes) (L : List (Bytes × Data))
    (i : Nat) (S : Bytes) (cache : Option Nat) (sz : Option Nat)
    (hget : L[i]? = none) :
    consumeCurrentData ⟨bl, L, i, none, true, ⟨S, S.length⟩, cache⟩ sz =
      (bl.length + 2 + 0,
       ⟨bl, L, i, none, true,
        ⟨(S ++ bl) ++ crlf, ((S ++ bl) ++ crlf).length⟩, cache⟩,
       []) := by
  simp only [consumeCurrentData]
  rw [write_end ⟨S, S.length⟩ bl rfl]
  dsimp only
  rw [write_end ⟨S ++ bl, S.length + bl.length⟩ crlf (by simp [Nat.add_assoc])]
  dsimp only
  rw [loadNew_finished bl L i none _ cache hget]
  simp [superLenOpt, optEqZero, crlf_length]
  omega

theorem encodedBody_cons (bl h b : Bytes) (fs : List (Bytes × Bytes)) :
    encodedBody bl ((h, b) :: fs) = bl ++ crlf ++ h ++ tailBytes bl b fs := rfl

theorem encodedBody_cons_length (bl h b : Bytes) (fs : List (Bytes × Bytes)) :
    (encodedBody bl ((h, b) :: fs)).length =
      bl.length + 2 + h.length + (tailBytes bl b fs).length := by
  rw [encodedBody_cons]
  simp [crlf_length]
  omega

/-- One step of the loop on the terminal empty-field-list state: it may
write another boundary line but produces no retraction and stays
finished. -/
theorem loadLoop_finished_none (fuel sz w : Nat) (bl : Bytes)
    (L : List (Bytes × Data)) (i : Nat) (S : Bytes) (cache : Option Nat)
    (evs : List RetractEvent) (hget : L[i]? = none) :
    (loadLoop fuel sz w ⟨bl, L, i, none, true, ⟨S, S.length⟩, cache⟩ evs).2 =
      evs ∧
    (loadLoop fuel sz w
      ⟨bl, L, i, none, true, ⟨S, S.length⟩, cache⟩ evs).1.finished = true := by
  cases fuel with
  | zero => exact ⟨rfl, rfl⟩
  | succ f =>
      rw [loadLoop]
      by_cases hw : w < sz
      · rw [if_pos hw]
        rw [consume_none_finished bl L i S cache (some (sz - w)) hget]
        dsimp only
        rw [loadNew_finished bl L i none _ cache hget]
        dsimp only
        rw [if_pos (rfl : true = true)]
        exact ⟨by simp, rfl⟩
      · rw [if_neg hw]
        exact ⟨rfl, rfl⟩

/-- Claim C2 amended: for a field list whose first field has a nonempty
body, a single `read` whose size covers the whole body produces exactly
the correctly framed multipart byte sequence
`--{boundary}\r\n{headers}{body}\r\n … --{boundary}--\r\n`, and the
encoder finishes. -/
theorem single_big_read_encodes (bval h b : Bytes)
    (fs : List (Bytes × Bytes)) (N : Nat) (hb : b ≠ [])
    (hN : (encodedBody (strBytes "--" ++ bval) ((h, b) :: fs)).length ≤ N) :
    (encRead (freshEnc bval (memFields ((h, b) :: fs))) (some N)).out =
      some (encodedBody (strBytes "--" ++ bval) ((h, b) :: fs)) ∧
    (encRead (freshEnc bval (memFields ((h, b) :: fs))) (some N)).enc.finished
      = true := by
  have hcl := encodedBody_cons_length (strBytes "--" ++ bval) h b fs
  have htp := tailBytes_length_pos (strBytes "--" ++ bval) b fs
  have hNpos : 0 < N := by omega
  have hget : (memFields ((h, b) :: fs))[0]? = some (h, Data.mem ⟨b, 0⟩) := by
    simp [memFields]
  have hcons := consume_none_field (strBytes "--" ++ bval)
    (memFields ((h, b) :: fs)) 0 [] none (some N) h b hget hb
  have hLL := loadLoop_frames fs ((h, b) :: fs) (0 + 1) (strBytes "--" ++ bval)
    ((([] ++ (strBytes "--" ++ bval)) ++ crlf) ++ h) b 0 none
    (N + (memFields ((h, b) :: fs)).length + 2) N
    ((strBytes "--" ++ bval).length + 2 + h.length) []
    (by simp)
    (by simp [memFields]; omega)
    (by simp only [List.drop_zero]; omega)
  obtain ⟨f1, f2, f3⟩ := hLL
  have e0 : CustomBytesBuffer.len ⟨([] : Bytes), 0⟩ = 0 := rfl
  have e1 : CustomBytesBuffer.smartTruncate ⟨([] : Bytes), 0⟩ = ⟨[], 0⟩ := rfl
  simp only [encRead, loadBytesFn, freshEnc, e0, e1]
  rw [if_pos hNpos, Nat.sub_zero]
  dsimp only [CustomBytesBuffer.seekEnd]
  rw [hcons]
  dsimp only
  rw [f2, f3]
  dsimp only [CustomBytesBuffer.seekTo, CustomBytesBuffer.readN,
    CustomBytesBuffer.unread]
  refine ⟨?_, rfl⟩
  have hST : ((([] ++ (strBytes "--" ++ bval)) ++ crlf) ++ h) ++
      tailBytes (strBytes "--" ++ bval) (List.drop 0 b) fs =
      encodedBody (strBytes "--" ++ bval) ((h, b) :: fs) := by
    rw [encodedBody_cons]
    simp [List.append_assoc]
  rw [List.drop_zero, hST, List.take_of_length_le hN]

theorem encodedBody_nil_length (bl : Bytes) :
    (encodedBody bl []).length = bl.length + 4 := by
  simp [encodedBody, closing_length]

/-- Claim C6 amended: in a single fresh read whose size exceeds the total
length by at least `boundary_len + 4` (so the loop always reaches the
retraction), exactly one retraction occurs, it removes exactly a `\r\n`
pair, and the removed bytes lie at or beyond the read cursor (so they were
never served) — for every field list, including empty bodies and the
empty list. -/
theorem single_big_read_retraction (bval : Bytes)
    (fields : List (Bytes × Bytes)) (N : Nat)
    (hN : (encodedBody (strBytes "--" ++ bval) fields).length +
      (strBytes "--" ++ bval).length + 4 ≤ N) :
    (encRead (freshEnc bval (memFields fields)) (some N)).events.length = 1 ∧
    (∀ ev ∈ (encRead (freshEnc bval (memFields fields)) (some N)).events,
      ev.removed = crlf ∧
      (encRead (freshEnc bval (memFields fields)) (some N)).orig ≤
        ev.truncPos) ∧
    (encRead (freshEnc bval (memFields fields)) (some N)).enc.finished
      = true := by
  have e0 : CustomBytesBuffer.len ⟨([] : Bytes), 0⟩ = 0 := rfl
  have e1 : CustomBytesBuffer.smartTruncate ⟨([] : Bytes), 0⟩ = ⟨[], 0⟩ := rfl
  match fields with
  | [] =>
      have hnl := encodedBody_nil_length (strBytes "--" ++ bval)
      have hNpos : 0 < N := by omega
      have hget : (memFields ([] : List (Bytes × Bytes)))[0]? = none := by
        simp [memFields]
      have hLF := loadLoop_finished_none
        (N + (memFields ([] : List (Bytes × Bytes))).length + 2) N
        ((strBytes "--" ++ bval).length + 2 + 0) (strBytes "--" ++ bval)
        (memFields []) 0 (([] ++ (strBytes "--" ++ bval)) ++ strBytes "--\r\n")
        none [⟨crlf, ([] ++ (strBytes "--" ++ bval)).length⟩] hget
      obtain ⟨g1, g2⟩ := hLF
      simp only [encRead, loadBytesFn, freshEnc, e0, e1]
      rw [if_pos hNpos, Nat.sub_zero]
      dsimp only [CustomBytesBuffer.seekEnd]
      rw [consume_none_nofields (strBytes "--" ++ bval) (memFields []) 0 []
        none (some N) hget]
      dsimp only
      rw [g1, g2]
      refine ⟨rfl, ?_, rfl⟩
      intro ev hev
      simp only [List.mem_singleton] at hev
      subst hev
      exact ⟨rfl, Nat.zero_le _⟩
  | (h, b) :: fs =>
      have hcl := encodedBody_cons_length (strBytes "--" ++ bval) h b fs
      have hNpos : 0 < N := by
        have := tailBytes_length_pos (strBytes "--" ++ bval) b fs
        omega
      by_cases hb : b = []
      · subst hb
        have hget : (memFields ((h, ([] : Bytes)) :: fs))[0]? =
            some (h, Data.mem ⟨[], 0⟩) := by
          simp [memFields]
        have hcons := consume_none_field_emptyb (strBytes "--" ++ bval)
          (memFields ((h, ([] : Bytes)) :: fs)) 0 [] none (some N) h hget
        have hLL := loadLoop_frames fs ((h, ([] : Bytes)) :: fs) (0 + 1)
          (strBytes "--" ++ bval)
          (((([] ++ (strBytes "--" ++ bval)) ++ crlf) ++ h) ++
            (crlf ++ (strBytes "--" ++ bval) ++ crlf)) [] 0 none
          (N + (memFields ((h, ([] : Bytes)) :: fs)).length + 2) N
          ((strBytes "--" ++ bval).length + 2 + h.length +
            (2 + (strBytes "--" ++ bval).length + 2)) []
          (by simp)
          (by simp [memFields]; omega)
          (by
            have hln : (crlf ++ (strBytes "--" ++ bval) ++ crlf).length =
                2 + (strBytes "--" ++ bval).length + 2 := by
              simp only [List.length_append, crlf_length]
            try simp only [List.drop_nil, List.drop_zero]
            omega)
        obtain ⟨f1, f2, f3⟩ := hLL
        simp only [encRead, loadBytesFn, freshEnc, e0, e1]
        rw [if_pos hNpos, Nat.sub_zero]
        dsimp only [CustomBytesBuffer.seekEnd]
        rw [hcons]
        dsimp only
        rw [f1, f2]
        refine ⟨rfl, ?_, rfl⟩
        intro ev hev
        simp only [List.nil_append, List.mem_singleton] at hev
        subst hev
        exact ⟨rfl, Nat.zero_le _⟩
      · have hget : (memFields ((h, b) :: fs))[0]? =
            some (h, Data.mem ⟨b, 0⟩) := by
          simp [memFields]
        have hcons := consume_none_field (strBytes "--" ++ bval)
          (memFields ((h, b) :: fs)) 0 [] none (some N) h b hget hb
        have hLL := loadLoop_frames fs ((h, b) :: fs) (0 + 1)
          (strBytes "--" ++ bval)
          ((([] ++ (strBytes "--" ++ bval)) ++ crlf) ++ h) b 0 none
          (N + (memFields ((h, b) :: fs)).length + 2) N
          ((strBytes "--" ++ bval).length + 2 + h.length) []
          (by simp)
          (by simp [memFields]; omega)
          (by simp only [List.drop_zero]; omega)
        obtain ⟨f1, f2, f3⟩ := hLL
        simp only [encRead, loadBytesFn, freshEnc, e0, e1]
        rw [if_pos hNpos, Nat.sub_zero]
        dsimp only [CustomBytesBuffer.seekEnd]
        rw [hcons]
        dsimp only
        rw [f1, f2]
        refine ⟨rfl, ?_, rfl⟩
        intro ev hev
        simp only [List.nil_append, List.mem_singleton] at hev
        subst hev
        exact ⟨rfl, Nat.zero_le _⟩

/-- `_consume_current_data` on a finished encoder whose current body is
exhausted: nothing is read or written. -/
theorem consume_empty_finished (bl : Bytes) (L : List (Bytes × Data))
    (i : Nat) (bd : Body) (buf : CustomBytesBuffer) (cache : Option Nat)
    (sz : Option Nat) (hbd : superLenBody bd = some 0) :
    consumeCurrentData ⟨bl, L, i, some bd, true, buf, cache⟩ sz =
      (0, ⟨bl, L, i, some bd, true, buf, cache⟩, []) := by
  simp [consumeCurrentData, hbd, optGtZero, superLenOpt, optEqZero]

/-- The loop of `_load_bytes` on a finished encoder with an exhausted
current body: a complete no-op. -/
theorem loadLoop_finished_drained (fuel sz w : Nat) (bl : Bytes)
    (L : List (Bytes × Data)) (i : Nat) (bd : Body)
    (buf : CustomBytesBuffer) (cache : Option Nat) (evs : List RetractEvent)
    (hbd : superLenBody bd = some 0) (hget : L[i]? = none) :
    loadLoop fuel sz w ⟨bl, L, i, some bd, true, buf, cache⟩ evs =
      (⟨bl, L, i, some bd, true, buf, cache⟩, evs) := by
  cases fuel with
  | zero => rfl
  | succ f =>
      rw [loadLoop]
      by_cases hw : w < sz
      · rw [if_pos hw]
        rw [consume_empty_finished bl L i bd buf cache (some (sz - w)) hbd]
        dsimp only
        rw [loadNew_finished bl L i (some bd) buf cache hget]
        dsimp only
        rw [if_pos (rfl : true = true)]
        simp
      · rw [if_neg hw]

/-- Claim C5 amended: on a finished encoder whose current body is
exhausted and whose buffer is drained, every further sized `read` returns
the empty byte string and only compacts the buffer: the state is preserved
(so this holds indefinitely).  An unsized `read` instead raises, and the
finished state of an empty field list keeps emitting boundary bytes. -/
theorem finished_sized_reads_empty (e : Enc) (n : Nat)
    (hfin : e.finished = true)
    (hcur : superLenOpt e.currentData = some 0)
    (hdrain : e.buffer.len = 0)
    (hiter : e.fieldsList.length ≤ e.iterPos) :
    (encRead e (some n)).out = some [] ∧
    (encRead e (some n)).enc = { e with buffer := ⟨[], 0⟩ } := by
  obtain ⟨bl, L, i, cur, fin, ⟨bs, bp⟩, cache⟩ := e
  cases cur with
  | none => simp [superLenOpt] at hcur
  | some bd =>
      simp only at hfin hiter
      subst hfin
      simp only [superLenOpt] at hcur
      simp only [CustomBytesBuffer.len, CustomBytesBuffer.getEnd] at hdrain
      have hdrop : bs.drop bp = [] := List.drop_eq_nil_of_le (by omega)
      have hget : L[i]? = none := List.getElem?_eq_none hiter
      have hst : CustomBytesBuffer.smartTruncate ⟨bs, bp⟩ = ⟨[], 0⟩ := by
        unfold CustomBytesBuffer.smartTruncate
        rw [if_pos]
        · simp [CustomBytesBuffer.unread, hdrop]
        · simp [CustomBytesBuffer.len, CustomBytesBuffer.getEnd]
          omega
      simp only [encRead, loadBytesFn, hst]
      dsimp only [CustomBytesBuffer.seekEnd]
      rw [consume_empty_finished bl L i bd _ cache _ hcur]
      dsimp only
      rw [loadLoop_finished_drained _ _ _ bl L i bd _ cache _ hcur hget]
      dsimp only [CustomBytesBuffer.seekTo, CustomBytesBuffer.readN,
        CustomBytesBuffer.unread, CustomBytesBuffer.len,
        CustomBytesBuffer.getEnd]
      constructor
      · simp
      · simp


theorem loadNew_facts (e : Enc) (hI : PreInv e) :
    LInv (loadNewCurrentData e).2.1 ∧
    e.buffer.storage.length + (loadNewCurrentData e).1 ≤
      (loadNewCurrentData e).2.1.buffer.storage.length ∧
    ((loadNewCurrentData e).2.1.finished = false →
      e.finished = false ∧ (loadNewCurrentData e).2.1.currentData ≠ none) := by
  obtain ⟨bl, L, i, cur, fin, ⟨bs, bp⟩, cache⟩ := e
  obtain ⟨hFm, hCm, hFi, hpos⟩ := hI
  simp only at hpos hFi hFm hCm
  subst hpos
  cases hget : L[i]? with
  | some t =>
      obtain ⟨th, td⟩ := t
      have htmem : td.isMem = true := hFm (th, td) (List.getElem?_mem hget)
      have hcmem : (coerceData td).isMem = true := by
        cases td with
        | mem c => rfl
        | file f => simp [Data.isMem] at htmem
        | noLen c => simp [Data.isMem] at htmem
      rw [loadNew_some bl L i cur fin bs cache th td hget]
      refine ⟨⟨⟨hFm, ?_, fun hf => Nat.le_succ_of_le (hFi hf), by simp⟩,
        by simp⟩, by simp, ?_⟩
      · simpa [isMemOpt] using hcmem
      · intro hfin2
        simp only at hfin2
        exact ⟨hfin2, by simp⟩
  | none =>
      cases fin with
      | true =>
          rw [loadNew_finished bl L i cur ⟨bs, bs.length⟩ cache hget]
          exact ⟨⟨⟨hFm, hCm, hFi, rfl⟩, fun _ => rfl⟩, by simp, by simp⟩
      | false =>
          rw [loadNew_retract bl L i cur bs cache hget]
          have hlen : L.length ≤ i := List.getElem?_eq_none_iff.mp hget
          have hlt : (bs.take (bs.length - 2)).length = bs.length - 2 := by
            simp [List.length_take]
          refine ⟨⟨⟨hFm, hCm, fun _ => hlen, rfl⟩, fun _ => rfl⟩, ?_, by simp⟩
          simp only [List.length_append, hlt, closing_length]
          omega

/-- Full evaluation of `_consume_current_data` on an in-memory current
body for an arbitrary request size `k`: up to `k` bytes are copied into
the buffer, and the optimistic separator follows exactly when this
exhausts the body of an unfinished encoder. -/
theorem consume_mem_eval (bl : Bytes) (L : List (Bytes × Data)) (i : Nat)
    (rb : Bytes) (rp : Nat) (fin : Bool) (k : Nat) (cache : Option Nat)
    (S : Bytes) :
    consumeCurrentData ⟨bl, L, i, some (.mem ⟨rb, rp⟩), fin, ⟨S, S.length⟩,
        cache⟩ (some k) =
      (if rb.length - (rp + min k (rb.length - rp)) = 0 ∧ fin = false then
        (((rb.drop rp).take k).length + (crlf ++ bl ++ crlf).length,
         ⟨bl, L, i, some (.mem ⟨rb, rp + min k (rb.length - rp)⟩), fin,
          ⟨(S ++ (rb.drop rp).take k) ++ (crlf ++ bl ++ crlf),
           ((S ++ (rb.drop rp).take k) ++ (crlf ++ bl ++ crlf)).length⟩,
          cache⟩, [])
      else
        (((rb.drop rp).take k).length,
         ⟨bl, L, i, some (.mem ⟨rb, rp + min k (rb.length - rp)⟩), fin,
          ⟨S ++ (rb.drop rp).take k, (S ++ (rb.drop rp).take k).length⟩,
          cache⟩, [])) := by
  by_cases hpos : 0 < rb.length - rp
  · by_cases hex : rb.length - (rp + min k (rb.length - rp)) = 0
    · cases fin with
      | false =>
          rw [if_pos ⟨hex, rfl⟩]
          simp [consumeCurrentData, optGtZero, superLenBody,
            CustomBytesBuffer.len, CustomBytesBuffer.getEnd, hpos,
            Body.readB, CustomBytesBuffer.readN, CustomBytesBuffer.unread,
            write_end, superLenOpt, optEqZero, hex]
          omega
      | true =>
          rw [if_neg (by simp)]
          simp [consumeCurrentData, optGtZero, superLenBody,
            CustomBytesBuffer.len, CustomBytesBuffer.getEnd, hpos,
            Body.readB, CustomBytesBuffer.readN, CustomBytesBuffer.unread,
            write_end, superLenOpt, optEqZero]
    · rw [if_neg (by simp [hex])]
      simp [consumeCurrentData, optGtZero, superLenBody,
        CustomBytesBuffer.len, CustomBytesBuffer.getEnd, hpos,
        Body.readB, CustomBytesBuffer.readN, CustomBytesBuffer.unread,
        write_end, superLenOpt, optEqZero, hex]
  · have h0 : rb.length - rp = 0 := by omega
    have hdrop : rb.drop rp = [] := List.drop_eq_nil_of_le (by omega)
    have hmin : min k (rb.length - rp) = 0 := by simp [h0]
    have hex : rb.length - (rp + min k (rb.length - rp)) = 0 := by
      simp [hmin]
      omega
    cases fin with
    | false =>
        rw [if_pos ⟨hex, rfl⟩]
        simp [consumeCurrentData, optGtZero, superLenBody,
          CustomBytesBuffer.len, CustomBytesBuffer.getEnd, h0, hdrop,
          write_end, superLenOpt, optEqZero]
    | true =>
        rw [if_neg (by simp)]
        simp [consumeCurrentData, optGtZero, superLenBody,
          CustomBytesBuffer.len, CustomBytesBuffer.getEnd, h0, hdrop,
          write_end, superLenOpt, optEqZero]

theorem consume_facts (e : Enc) (k : Nat) (hI : PreInv e) :
    LInv (consumeCurrentData e (some k)).2.1 ∧
    e.buffer.storage.length + (consumeCurrentData e (some k)).1 ≤
      (consumeCurrentData e (some k)).2.1.buffer.storage.length ∧
    ((consumeCurrentData e (some k)).2.1.finished = false →
      e.finished = false) := by
  obtain ⟨bl, L, i, cur, fin, ⟨bs, bp⟩, cache⟩ := e
  obtain ⟨hFm, hCm, hFi, hpos⟩ := hI
  simp only at hpos hFi hFm hCm
  subst hpos
  cases cur with
  | none =>
      simp only [consumeCurrentData]
      rw [write_end ⟨bs, bs.length⟩ bl rfl]
      dsimp only
      rw [write_end ⟨bs ++ bl, bs.length + bl.length⟩ crlf
        (by simp [Nat.add_assoc])]
      dsimp only
      have hI2 : PreInv ⟨bl, L, i, none, fin,
          ⟨(bs ++ bl) ++ crlf, bs.length + bl.length + crlf.length⟩, cache⟩ := by
        refine ⟨hFm, rfl, hFi, ?_⟩
        simp [Nat.add_assoc]
      have hf := loadNew_facts _ hI2
      rcases hLN : loadNewCurrentData ⟨bl, L, i, none, fin,
          ⟨(bs ++ bl) ++ crlf, bs.length + bl.length + crlf.length⟩, cache⟩
        with ⟨w3, e3, v3⟩
      rw [hLN] at hf
      obtain ⟨⟨⟨g1, g2, g3, g4⟩, g5⟩, hg, hmono⟩ := hf
      dsimp only at g1 g2 g3 g4 g5 hg hmono ⊢
      by_cases hc : (optEqZero (superLenOpt e3.currentData) && !e3.finished)
        = true
      · rw [if_pos hc]
        rw [write_end e3.buffer _ g4]
        dsimp only
        refine ⟨⟨⟨g1, g2, g3, ?_⟩, ?_⟩, ?_, ?_⟩
        · simp [g4]
        · intro hnone
          exact g5 hnone
        · simp only [List.length_append] at hg
          simp only [List.length_append]
          omega
        · intro hfin3
          exact (hmono hfin3).1
      · rw [if_neg hc]
        dsimp only
        refine ⟨⟨⟨g1, g2, g3, g4⟩, g5⟩, ?_, fun hfin3 => (hmono hfin3).1⟩
        simp only [List.length_append] at hg
        omega
  | some bd =>
      cases bd with
      | fileW f => simp [isMemOpt, Body.isMem] at hCm
      | noLen c => simp [isMemOpt, Body.isMem] at hCm
      | mem c =>
          obtain ⟨rb, rp⟩ := c
          rw [consume_mem_eval bl L i rb rp fin k cache bs]
          by_cases hc : rb.length - (rp + min k (rb.length - rp)) = 0 ∧
            fin = false
          · rw [if_pos hc]
            refine ⟨⟨⟨hFm, rfl, hFi, rfl⟩, by simp⟩, ?_, fun _ => hc.2⟩
            simp only [List.length_append, List.length_take]
            omega
          · rw [if_neg hc]
            refine ⟨⟨⟨hFm, rfl, hFi, rfl⟩, by simp⟩, ?_, fun h => by
              simpa using h ▸ rfl⟩
            simp only [List.length_append, List.length_take]
            omega

theorem consume_progress (e : Enc) (k : Nat) (hI : PreInv e)
    (hfin : e.finished = false) (hk : 1 ≤ k) :
    1 ≤ (consumeCurrentData e (some k)).1 := by
  obtain ⟨bl, L, i, cur, fin, ⟨bs, bp⟩, cache⟩ := e
  obtain ⟨hFm, hCm, hFi, hpos⟩ := hI
  simp only at hpos hfin hCm
  subst hpos
  subst hfin
  cases cur with
  | none =>
      simp only [consumeCurrentData]
      rw [write_end ⟨bs, bs.length⟩ bl rfl]
      dsimp only
      rw [write_end ⟨bs ++ bl, bs.length + bl.length⟩ crlf
        (by simp [Nat.add_assoc])]
      dsimp only
      rcases hLN : loadNewCurrentData ⟨bl, L, i, none, false,
          ⟨(bs ++ bl) ++ crlf, bs.length + bl.length + crlf.length⟩, cache⟩
        with ⟨w3, e3, v3⟩
      dsimp only
      by_cases hc : (optEqZero (superLenOpt e3.currentData) && !e3.finished)
        = true
      · rw [if_pos hc]
        dsimp only
        have := crlf_length
        omega
      · rw [if_neg hc]
        dsimp only
        have := crlf_length
        omega
  | some bd =>
      cases bd with
      | fileW f => simp [isMemOpt, Body.isMem] at hCm
      | noLen c => simp [isMemOpt, Body.isMem] at hCm
      | mem c =>
          obtain ⟨rb, rp⟩ := c
          rw [consume_mem_eval bl L i rb rp false k cache bs]
          by_cases hc : rb.length - (rp + min k (rb.length - rp)) = 0 ∧
            (false : Bool) = false
          · rw [if_pos hc]
            dsimp only
            have h4 : 4 ≤ (crlf ++ bl ++ crlf).length := by
              simp only [List.length_append, crlf_length]
              omega
            omega
          · rw [if_neg hc]
            dsimp only
            simp only [List.length_take, List.length_drop]
            have hne : ¬ (rb.length - (rp + min k (rb.length - rp)) = 0) := by
              intro hz
              exact hc ⟨hz, rfl⟩
            omega

/-- The loop of `_load_bytes` either finishes the encoder or grows the
buffer storage by at least the remaining byte budget. -/
theorem loadLoop_exit (fuel : Nat) : ∀ (sz w : Nat) (e : Enc)
    (evs : List RetractEvent), LInv e → sz ≤ w + fuel →
    (loadLoop fuel sz w e evs).1.finished = true ∨
      e.buffer.storage.length + (sz - w) ≤
        (loadLoop fuel sz w e evs).1.buffer.storage.length := by
  induction fuel with
  | zero =>
      intro sz w e evs hI hf
      right
      have : sz - w = 0 := by omega
      simp [loadLoop, this]
  | succ fuel ih =>
      intro sz w e evs hI hf
      rw [loadLoop]
      by_cases hw : w < sz
      · rw [if_pos hw]
        have hcf := consume_facts e (sz - w) hI.1
        rcases hC : consumeCurrentData e (some (sz - w)) with ⟨w1, e1, v1⟩
        rw [hC] at hcf
        obtain ⟨hI1, hg1, hm1⟩ := hcf
        dsimp only at hI1 hg1 hm1 ⊢
        have hlf := loadNew_facts e1 hI1.1
        rcases hL : loadNewCurrentData e1 with ⟨w2, e2, v2⟩
        rw [hL] at hlf
        obtain ⟨hI2, hg2, hm2⟩ := hlf
        dsimp only at hI2 hg2 hm2 ⊢
        by_cases hfin2 : e2.finished = true
        · rw [if_pos hfin2]
          exact Or.inl hfin2
        · rw [if_neg hfin2]
          have hfin2' : e2.finished = false := by
            cases hfe : e2.finished with
            | false => rfl
            | true => exact absurd hfe hfin2
          have he1f : e1.finished = false := (hm2 hfin2').1
          have hef : e.finished = false := hm1 he1f
          have hw1 : 1 ≤ w1 := by
            have := consume_progress e (sz - w) hI.1 hef (by omega)
            rwa [hC] at this
          have hrec := ih sz (w + w1 + w2) e2 (evs ++ v1 ++ v2) hI2
            (by omega)
          rcases hrec with hfin3 | hgrow
          · exact Or.inl hfin3
          · right
            omega
      · rw [if_neg hw]
        right
        have : sz - w = 0 := by omega
        simp [this]

/-- Claim C9: for any well-formed encoder state (in-memory bodies) and any
requested size `n`, `read(n)` returns (it never raises), and yields
exactly `n` bytes unless the stream has ended, in which case it yields
fewer and leaves a finished encoder with a drained buffer. -/
theorem read_exact_or_stream_end (e : Enc) (n : Nat) (hwf : WFEnc e) :
    (encRead e (some n)).out ≠ none ∧
    (((encRead e (some n)).out.getD []).length = n ∨
     (((encRead e (some n)).out.getD []).length < n ∧
      (encRead e (some n)).enc.finished = true ∧
      (encRead e (some n)).enc.buffer.len = 0)) := by
  obtain ⟨hFm, hCm, hFi⟩ := hwf
  have hst := smartTruncate_pos_le e.buffer
  have hstl := smartTruncate_len e.buffer
  have hI0 : PreInv { e with buffer := e.buffer.smartTruncate.seekEnd } := by
    exact ⟨hFm, hCm, hFi, rfl⟩
  have hcf := consume_facts { e with buffer := e.buffer.smartTruncate.seekEnd }
    (if e.buffer.len < n then n - e.buffer.len else 0) hI0
  rcases hC : consumeCurrentData
      { e with buffer := e.buffer.smartTruncate.seekEnd }
      (some (if e.buffer.len < n then n - e.buffer.len else 0))
    with ⟨w0, e1, v0⟩
  rw [hC] at hcf
  obtain ⟨hI1, hg1, hm1⟩ := hcf
  dsimp only at hI1 hg1 hm1
  have hex := loadLoop_exit
    ((if e.buffer.len < n then n - e.buffer.len else 0) +
      e1.fieldsList.length + 2)
    (if e.buffer.len < n then n - e.buffer.len else 0) w0 e1 v0 hI1
    (by omega)
  rcases hL : loadLoop
      ((if e.buffer.len < n then n - e.buffer.len else 0) +
        e1.fieldsList.length + 2)
      (if e.buffer.len < n then n - e.buffer.len else 0) w0 e1 v0
    with ⟨e2, evs⟩
  rw [hL] at hex
  dsimp only at hex
  simp only [encRead, loadBytesFn, hC, hL]
  dsimp only [CustomBytesBuffer.seekTo, CustomBytesBuffer.readN,
    CustomBytesBuffer.unread, CustomBytesBuffer.len, CustomBytesBuffer.getEnd]
  refine ⟨by simp, ?_⟩
  have hlen0 : e.buffer.smartTruncate.pos + e.buffer.len =
      e.buffer.smartTruncate.storage.length := by
    rw [← hstl]
    exact hst
  have hg0 : e.buffer.smartTruncate.storage.length + w0 ≤
      e1.buffer.storage.length := by
    simpa [CustomBytesBuffer.seekEnd] using hg1
  simp only [Option.getD_some, List.length_take, List.length_drop]
  rcases hex with hfin | hgrow
  · by_cases hserved : e2.buffer.storage.length -
        e.buffer.smartTruncate.pos < n
    · right
      refine ⟨by omega, hfin, ?_⟩
      omega
    · left
      omega
  · left
    by_cases hamt : e.buffer.len < n
    · rw [if_pos hamt] at hgrow
      omega
    · rw [if_neg hamt] at hgrow
      omega

theorem nextTuple_cache (e : Enc) (v : Option Nat) :
    nextTuple (setCache e v) =
      ((nextTuple e).1, setCache (nextTuple e).2.1 v, (nextTuple e).2.2) := by
  obtain ⟨bl, L, i, cur, fin, buf, cache⟩ := e
  cases hget : L[i]? with
  | some t => simp [nextTuple, setCache, hget]
  | none =>
      cases fin with
      | true => simp [nextTuple, setCache, hget]
      | false => simp [nextTuple, setCache, hget]

theorem loadNew_cache (e : Enc) (v : Option Nat) :
    loadNewCurrentData (setCache e v) =
      ((loadNewCurrentData e).1, setCache (loadNewCurrentData e).2.1 v,
       (loadNewCurrentData e).2.2) := by
  rw [loadNewCurrentData, nextTuple_cache]
  rcases hN : nextTuple e with ⟨t, e2, evs⟩
  cases t with
  | none =>
      cases e2
      simp [loadNewCurrentData, hN, setCache]
  | some p =>
      obtain ⟨hh, dd⟩ := p
      cases e2
      simp [loadNewCurrentData, hN, setCache]

theorem consume_cache (e : Enc) (v : Option Nat) (s : Option Nat) :
    consumeCurrentData (setCache e v) s =
      ((consumeCurrentData e s).1,
       setCache (consumeCurrentData e s).2.1 v,
       (consumeCurrentData e s).2.2) := by
  obtain ⟨bl, L, i, cur, fin, buf, cache⟩ := e
  cases cur with
  | none =>
      simp only [consumeCurrentData, setCache]
      have hln := loadNew_cache
        ⟨bl, L, i, none, fin, ((buf.write bl).2.write crlf).2, cache⟩ v
      simp only [setCache] at hln
      rw [hln]
      rcases hLN : loadNewCurrentData
          ⟨bl, L, i, none, fin, ((buf.write bl).2.write crlf).2, cache⟩
        with ⟨w3, e3, v3⟩
      cases e3
      dsimp only
      split <;> simp [setCache]
  | some bd =>
      by_cases hgt : optGtZero (superLenBody bd) = true
      · simp only [consumeCurrentData, setCache, hgt, if_true]
        by_cases hc : (optEqZero (superLenOpt (some (bd.readB s).2)) &&
          !fin) = true
        · rw [if_pos hc]
          have hp : optEqZero (superLenOpt (some (bd.readB s).2)) = true ∧
              fin = false := by
            simpa [Bool.and_eq_true, Bool.not_eq_true'] using hc
          simp [setCache, hp.1, hp.2]
        · rw [if_neg hc]
          have hp : ¬(optEqZero (superLenOpt (some (bd.readB s).2)) = true ∧
              fin = false) := by
            intro hand
            exact hc (by simp [hand.1, hand.2])
          simp [setCache, hp]
      · simp only [consumeCurrentData, setCache, hgt, if_false,
          Bool.not_eq_true, Bool.false_eq_true]
        by_cases hc : (optEqZero (superLenOpt (some bd)) && !fin) = true
        · rw [if_pos hc]
          have hp : optEqZero (superLenOpt (some bd)) = true ∧
              fin = false := by
            simpa [Bool.and_eq_true, Bool.not_eq_true'] using hc
          simp [setCache, hp.1, hp.2]
        · rw [if_neg hc]
          have hp : ¬(optEqZero (superLenOpt (some bd)) = true ∧
              fin = false) := by
            intro hand
            exact hc (by simp [hand.1, hand.2])
          simp [setCache, hp]

theorem loadLoop_cache (fuel : Nat) : ∀ (sz w : Nat) (e : Enc)
    (v : Option Nat) (evs : List RetractEvent),
    loadLoop fuel sz w (setCache e v) evs =
      (setCache (loadLoop fuel sz w e evs).1 v,
       (loadLoop fuel sz w e evs).2) := by
  induction fuel with
  | zero => intro sz w e v evs; rfl
  | succ fuel ih =>
      intro sz w e v evs
      rw [loadLoop, loadLoop]
      by_cases hw : w < sz
      · rw [if_pos hw, if_pos hw]
        rw [consume_cache]
        rcases hC : consumeCurrentData e (some (sz - w)) with ⟨w1, e1, v1⟩
        dsimp only
        rw [loadNew_cache]
        rcases hL : loadNewCurrentData e1 with ⟨w2, e2, v2⟩
        dsimp only
        by_cases hf2 : e2.finished = true
        · rw [if_pos (by simpa [setCache] using hf2), if_pos hf2]
        · rw [if_neg (by simpa [setCache] using hf2), if_neg hf2]
          exact ih sz (w + w1 + w2) e2 v (evs ++ v1 ++ v2)
      · rw [if_neg hw, if_neg hw]

theorem loadBytes_cache (e : Enc) (v : Option Nat) (s : Option Nat) :
    loadBytesFn (setCache e v) s =
      ⟨(loadBytesFn e s).crashed, setCache (loadBytesFn e s).enc v,
       (loadBytesFn e s).orig, (loadBytesFn e s).events⟩ := by
  simp only [loadBytesFn, setCache]
  have hcc := consume_cache
    { e with buffer := e.buffer.smartTruncate.seekEnd } v s
  simp only [setCache] at hcc
  rw [hcc]
  rcases hC : consumeCurrentData
      { e with buffer := e.buffer.smartTruncate.seekEnd } s
    with ⟨w0, e1, v0⟩
  cases s with
  | none => rfl
  | some sz =>
      dsimp only
      have hll := loadLoop_cache (sz + e1.fieldsList.length + 2) sz w0 e1 v v0
      simp only [setCache] at hll
      rw [hll]

theorem encRead_cache (e : Enc) (v : Option Nat) (s : Option Nat) :
    encRead (setCache e v) s =
      ⟨(encRead e s).out, setCache (encRead e s).enc v,
       (encRead e s).orig, (encRead e s).events⟩ := by
  cases s with
  | none =>
      simp only [encRead]
      rw [loadBytes_cache]
  | some sz =>
      simp only [encRead, setCache]
      have hlb := loadBytes_cache e v (some (if e.buffer.len < sz
        then sz - e.buffer.len else 0))
      simp only [setCache] at hlb
      rw [hlb]

theorem calcFold_none_iff (blen : Nat) (fields : List (Bytes × Data)) :
    ∀ acc : Nat, (calcLengthFold blen fields acc).1 = none ↔
      ∃ p ∈ fields, superLenData p.2 = none := by
  induction fields with
  | nil => intro acc; simp [calcLengthFold]
  | cons p rest ih =>
      intro acc
      obtain ⟨ph, pd⟩ := p
      cases hd : superLenData pd with
      | some m => simp [calcLengthFold, hd, ih]
      | none => simp [calcLengthFold, hd]

/-- Claim C8: `total_length()` on a fresh encoder fails (raises) exactly
when some body source has no known length, the call touches nothing but
the memoised `_len`, and `read` neither reads nor changes that memo — its
output and all other state components are unaffected by it. -/
theorem totalLength_failure_isolated :
    (∀ (bval : Bytes) (fields : List (Bytes × Data)),
      (encLenCall (freshEnc bval fields)).1 = none ↔
        ∃ p ∈ fields, superLenData p.2 = none) ∧
    (∀ e : Enc, (encLenCall e).2 = setCache e (encLenCall e).2.lenCache) ∧
    (∀ (e : Enc) (v : Option Nat) (s : Option Nat),
      encRead (setCache e v) s =
        ⟨(encRead e s).out, setCache (encRead e s).enc v,
         (encRead e s).orig, (encRead e s).events⟩) := by
  refine ⟨?_, ?_, encRead_cache⟩
  · intro bval fields
    have hiff := calcFold_none_iff (strBytes "--" ++ bval).length fields 0
    rcases hF : calcLengthFold (strBytes "--" ++ bval).length fields 0
      with ⟨ok, vv⟩
    rw [hF] at hiff
    simp only [encLenCall, freshEnc, hF]
    cases ok with
    | some t => simpa using hiff
    | none => simpa using hiff
  · intro e
    obtain ⟨bl, L, i, cur, fin, buf, cache⟩ := e
    cases cache with
    | some t => simp [encLenCall, setCache]
    | none =>
        simp only [encLenCall]
        rcases hF : calcLengthFold bl.length L 0 with ⟨ok, vv⟩
        cases ok with
        | some t => simp [setCache]
        | none => simp [setCache]

/-- Counterexample to claim C2's general output-shape statement: for a
field with an empty body, a single read large enough to cover the whole
encoded body does not return the encoded body — the optimistic separator
written before the empty body is followed by a second separator, so the
emitted bytes diverge from the `--boundary\r\nHEADERS\r\nBODY\r\n...`
shape. -/
theorem empty_body_read_not_encoded :
    (encodedBody (strBytes "--" ++ strBytes "boundary")
      [(fieldHeader, [])]).length ≤ 200 ∧
    (encRead (freshEnc (strBytes "boundary")
        (memFields [(fieldHeader, [])])) (some 200)).out ≠
      some (encodedBody (strBytes "--" ++ strBytes "boundary")
        [(fieldHeader, [])]) := by
  decide

theorem single_big_read_encodes_witness :
    strBytes "value" ≠ ([] : Bytes) ∧
    (encodedBody (strBytes "--" ++ strBytes "boundary")
      [(fieldHeader, strBytes "value")]).length ≤ 81 ∧
    ((encRead (freshEnc (strBytes "boundary")
        (memFields [(fieldHeader, strBytes "value")])) (some 81)).out =
      some (encodedBody (strBytes "--" ++ strBytes "boundary")
        [(fieldHeader, strBytes "value")]) ∧
     (encRead (freshEnc (strBytes "boundary")
        (memFields [(fieldHeader, strBytes "value")])) (some 81)).enc.finished
       = true) :=
  ⟨by decide, by decide,
   single_big_read_encodes (strBytes "boundary") fieldHeader
     (strBytes "value") [] 81 (by decide) (by decide)⟩

theorem finished_sized_reads_empty_witness :
    c5Wit.finished = true ∧
    superLenOpt c5Wit.currentData = some 0 ∧
    c5Wit.buffer.len = 0 ∧
    c5Wit.fieldsList.length ≤ c5Wit.iterPos ∧
    ((encRead c5Wit (some 7)).out = some [] ∧
     (encRead c5Wit (some 7)).enc = { c5Wit with buffer := ⟨[], 0⟩ }) :=
  ⟨rfl, by decide, by decide, by decide,
   finished_sized_reads_empty c5Wit 7 rfl (by decide) (by decide) (by decide)⟩

theorem single_big_read_retraction_witness :
    (encodedBody (strBytes "--" ++ strBytes "boundary")
      [(fieldHeader, strBytes "value")]).length +
      (strBytes "--" ++ strBytes "boundary").length + 4 ≤ 100 ∧
    ((encRead (freshEnc (strBytes "boundary")
        (memFields [(fieldHeader, strBytes "value")])) (some 100)).events.length
       = 1 ∧
     (∀ ev ∈ (encRead (freshEnc (strBytes "boundary")
         (memFields [(fieldHeader, strBytes "value")])) (some 100)).events,
       ev.removed = crlf ∧
       (encRead (freshEnc (strBytes "boundary")
           (memFields [(fieldHeader, strBytes "value")])) (some 100)).orig ≤
         ev.truncPos) ∧
     (encRead (freshEnc (strBytes "boundary")
         (memFields [(fieldHeader, strBytes "value")])) (some 100)).enc.finished
       = true) :=
  ⟨by decide,
   single_big_read_retraction (strBytes "boundary")
     [(fieldHeader, strBytes "value")] 100 (by decide)⟩

theorem read_exact_or_stream_end_witness :
    WFEnc exEnc ∧
    ((encRead exEnc (some 10)).out ≠ none ∧
     (((encRead exEnc (some 10)).out.getD []).length = 10 ∨
      (((encRead exEnc (some 10)).out.getD []).length < 10 ∧
       (encRead exEnc (some 10)).enc.finished = true ∧
       (encRead exEnc (some 10)).enc.buffer.len = 0))) :=
  ⟨by decide, read_exact_or_stream_end exEnc 10 (by decide)⟩

end MPEnc
